import Mathlib

/-! Verification of the sound-event extraction pipeline in
mesoscope/oddball_fm_sound_identity.ipynb. The notebook defines two pure
functions: find_onsets, which detects sound onsets by thresholded first
differences followed by a refractory (minimum-period) filter, and
find_fm_direction, which classifies each detected trial as an upward or
downward frequency sweep by comparing the dominant FFT bin of the first and
second half of a fixed-duration window after the onset. Both are shallowly
embedded below; the onset detector is embedded over the rationals so that it
is fully executable, and the classifier over the reals with an exact DFT. -/

namespace Oddball

/-- Model of np.diff: the list of consecutive differences of a list,
one element shorter than the input. -/
def npDiff {α : Type} [Sub α] (l : List α) : List α :=
  List.zipWith (fun a b => b - a) l l.tail

/-- Helper for the model of np.flatnonzero: indices, counted from i,
of the true entries of a boolean list. -/
def flatnonzeroAux : List Bool → ℕ → List ℕ
  | [], _ => []
  | b :: bs, i => if b then i :: flatnonzeroAux bs (i + 1) else flatnonzeroAux bs (i + 1)

/-- Model of np.flatnonzero on a boolean array: the ascending list of
indices of its true entries. -/
def flatnonzero (l : List Bool) : List ℕ := flatnonzeroAux l 0

/-- Model of numpy boolean-mask indexing a[mask]: keep the elements of the
first list at the positions where the mask is true. The two lists have equal
length at the call site in find_onsets. -/
def boolMask : List ℕ → List Bool → List ℕ
  | [], _ => []
  | _, [] => []
  | x :: xs, b :: bs => if b then x :: boolMask xs bs else boolMask xs bs

/-- The candidate set of find_onsets, named onsetIndsAll in the source:
indices where the first difference of the signal (with the first sample
prepended, so the difference at index 0 is 0) strictly exceeds the
threshold. On the empty signal the source raises before this point, so the
empty case is never consumed by find_onsets. -/
def onsetIndsAll : List ℚ → ℚ → List ℕ
  | [], _ => []
  | s0 :: rest, thr =>
      flatnonzero ((npDiff (s0 :: s0 :: rest)).map (fun d => decide (thr < d)))

/-- Embedding of find_onsets from the notebook. The source reads signal[0]
to build the prepend argument of np.diff, which raises IndexError on an
empty signal; that failure is modelled as none. onsetDiff prepends the
value periodThreshold to the candidate-index list before differencing, so
the first candidate is assigned the gap c0 - periodThreshold. -/
def find_onsets (signal : List ℚ) (signalThreshold : ℚ) (periodThreshold : ℤ) :
    Option (List ℕ) :=
  match signal with
  | [] => none
  | s0 :: rest =>
    let signalDiff := npDiff (s0 :: s0 :: rest)
    let signalOnset := signalDiff.map (fun d => decide (signalThreshold < d))
    let onsetCands := flatnonzero signalOnset
    let onsetDiff := npDiff (periodThreshold :: onsetCands.map (fun n => (n : ℤ)))
    let repeatedOnsets := onsetDiff.map (fun d => decide (d < periodThreshold))
    some (boolMask onsetCands (repeatedOnsets.map (fun b => !b)))

/-- The refractory filter of find_onsets, written as a recursion: walk the
candidate list keeping track of the previous raw candidate (initially the
virtual predecessor periodThreshold) and drop a candidate exactly when its
gap to that previous raw candidate is strictly below periodThreshold. This
is proved equal to the boolean-mask formulation used in find_onsets. -/
def refractory (P : ℤ) : ℤ → List ℕ → List ℕ
  | _, [] => []
  | prev, c :: cs =>
      if (c : ℤ) - prev < P then refractory P (c : ℤ) cs
      else c :: refractory P (c : ℤ) cs

theorem refractory_sublist (P : ℤ) (cs : List ℕ) : ∀ v : ℤ, List.Sublist (refractory P v cs) cs := by
  induction cs with
  | nil => intro v; simp [refractory]
  | cons c cs ih =>
      intro v
      simp only [refractory]
      split
      · exact (ih (c : ℤ)).cons c
      · exact (ih (c : ℤ)).cons₂ c

theorem boolMask_eq_refractory (P : ℤ) (cs : List ℕ) : ∀ v : ℤ,
    boolMask cs
      (((npDiff (v :: cs.map (fun n => (n : ℤ)))).map (fun d => decide (d < P))).map
        (fun b => !b)) = refractory P v cs := by
  induction cs with
  | nil => intro v; rfl
  | cons c cs ih =>
      intro v
      have hstep : npDiff (v :: (c :: cs).map (fun n => (n : ℤ))) =
          ((c : ℤ) - v) :: npDiff ((c : ℤ) :: cs.map (fun n => (n : ℤ))) := by
        simp [npDiff]
      rw [hstep]
      by_cases hlt : (c : ℤ) - v < P
      · simpa [boolMask, refractory, hlt] using ih (c : ℤ)
      · simpa [boolMask, refractory, hlt] using ih (c : ℤ)

theorem find_onsets_eq (s0 : ℚ) (rest : List ℚ) (thr : ℚ) (P : ℤ) :
    find_onsets (s0 :: rest) thr P =
      some (refractory P P (onsetIndsAll (s0 :: rest) thr)) := by
  simp only [find_onsets, onsetIndsAll]
  rw [boolMask_eq_refractory]

theorem flatnonzeroAux_le (l : List Bool) : ∀ (i x : ℕ), x ∈ flatnonzeroAux l i → i ≤ x := by
  induction l with
  | nil => intro i x hx; simp [flatnonzeroAux] at hx
  | cons b bs ih =>
      intro i x hx
      simp only [flatnonzeroAux] at hx
      split at hx
      · rcases List.mem_cons.mp hx with rfl | hx
        · exact le_refl x
        · exact Nat.le_of_succ_le (ih (i + 1) x hx)
      · exact Nat.le_of_succ_le (ih (i + 1) x hx)

theorem flatnonzeroAux_pairwise (l : List Bool) :
    ∀ i : ℕ, (flatnonzeroAux l i).Pairwise (· < ·) := by
  induction l with
  | nil => intro i; simp [flatnonzeroAux]
  | cons b bs ih =>
      intro i
      simp only [flatnonzeroAux]
      split
      · exact List.pairwise_cons.mpr
          ⟨fun x hx => Nat.lt_of_succ_le (flatnonzeroAux_le bs (i + 1) x hx), ih (i + 1)⟩
      · exact ih (i + 1)

theorem onsetIndsAll_pairwise (signal : List ℚ) (thr : ℚ) :
    (onsetIndsAll signal thr).Pairwise (· < ·) := by
  cases signal with
  | nil => simp [onsetIndsAll]
  | cons s0 rest => exact flatnonzeroAux_pairwise _ 0

theorem refractory_mem_head (P v : ℤ) (c : ℕ) (cs : List ℕ)
    (hp : (c :: cs).Pairwise (· < ·)) :
    c ∈ refractory P v (c :: cs) ↔ P ≤ (c : ℤ) - v := by
  have hnot : c ∉ refractory P (c : ℤ) cs := by
    intro hc
    exact lt_irrefl c ((List.pairwise_cons.mp hp).1 c ((refractory_sublist P cs (c : ℤ)).subset hc))
  simp only [refractory]
  split
  · rename_i hlt
    constructor
    · intro hc; exact absurd hc hnot
    · intro hle; exact absurd hle (not_le.mpr hlt)
  · rename_i hge
    exact iff_of_true (List.mem_cons_self c _) (not_lt.mp hge)

theorem refractory_mem_pair (P : ℤ) (c c' : ℕ) (post : List ℕ) :
    ∀ (pre : List ℕ) (v : ℤ), (pre ++ c :: c' :: post).Pairwise (· < ·) →
      (c' ∈ refractory P v (pre ++ c :: c' :: post) ↔ P ≤ (c' : ℤ) - (c : ℤ)) := by
  intro pre
  induction pre with
  | nil =>
      intro v hp
      simp only [List.nil_append] at hp ⊢
      have hlt : c < c' := (List.pairwise_cons.mp hp).1 c' (by simp)
      have htail : (c' :: post).Pairwise (· < ·) := (List.pairwise_cons.mp hp).2
      have hmem := refractory_mem_head P (c : ℤ) c' post htail
      simp only [refractory]
      split
      · exact hmem
      · constructor
        · intro h
          rcases List.mem_cons.mp h with h | h
          · omega
          · exact hmem.mp h
        · intro h; exact List.mem_cons_of_mem c (hmem.mpr h)
  | cons a pre ih =>
      intro v hp
      rw [List.cons_append] at hp
      have hrest := (List.pairwise_cons.mp hp).2
      have halt : a < c' := (List.pairwise_cons.mp hp).1 c' (by simp)
      have hiff := ih (a : ℤ) hrest
      rw [List.cons_append]
      simp only [refractory]
      split
      · exact hiff
      · constructor
        · intro h
          rcases List.mem_cons.mp h with h | h
          · omega
          · exact hiff.mp h
        · intro h; exact List.mem_cons_of_mem a (hiff.mpr h)

/-- Concrete instance of the waveform scenario of the specification:
zeros with an amplitude jump of 0.2 at index 3 and of 0.3 at index 10. -/
def specWaveform : List ℚ := [0, 0, 0, mkRat 1 5, 0, 0, 0, 0, 0, 0, mkRat 3 10, 0, 0]

/-- Waveform with a single amplitude jump of 0.2 at index 10. -/
def jumpAtTen : List ℚ := [0, 0, 0, 0, 0, 0, 0, 0, 0, 0, mkRat 1 5]

/-! Claim theorems for the onset detector. -/

unseal Rat.sub in
/-- C2 counterexample: on the concrete scenario waveform of the
specification, with signalThreshold 0.1 and periodThreshold 5, find_onsets
does not return the onset sequence [3, 10] claimed by the specification. -/
theorem find_onsets_scenario_cex :
    find_onsets specWaveform (mkRat 1 10) 5 ≠ some [3, 10] := by decide

unseal Rat.sub in
/-- C2 (amended): on the scenario waveform with signalThreshold 0.1 and
periodThreshold 5, find_onsets returns [10]: the candidate at index 3 is
discarded because the prepended virtual predecessor assigns it the gap
3 - 5 = -2, which is below 5, while the candidate at index 10 is kept
since its gap 10 - 3 = 7 is at least 5. -/
theorem find_onsets_scenario :
    find_onsets specWaveform (mkRat 1 10) 5 = some [10] := by decide

unseal Rat.sub in
/-- C3 counterexample: on the empty waveform, find_onsets does not return
an empty onset sequence; it fails (the source raises IndexError when it
reads signal[0] to build the prepend argument of np.diff). -/
theorem find_onsets_empty_cex :
    find_onsets ([] : List ℚ) (mkRat 1 10) 5 ≠ some [] := by decide

/-- C3 (amended): for the empty waveform and any thresholds, find_onsets
raises an IndexError while reading signal[0], modelled as none, rather
than returning an empty onset sequence. -/
theorem find_onsets_empty (thr : ℚ) (P : ℤ) :
    find_onsets ([] : List ℚ) thr P = none := rfl

unseal Rat.sub in
/-- C1 counterexample: the waveform with a single candidate at index 1
(one amplitude jump of 0.2) and positive thresholds 0.1 and 5 has a
non-empty candidate set, yet find_onsets returns the empty sequence, so
the first candidate does not always appear in the result. -/
theorem find_onsets_first_cex :
    (0 : ℚ) < mkRat 1 10 ∧ (0 : ℤ) < 5 ∧
    onsetIndsAll [0, mkRat 1 5] (mkRat 1 10) = [1] ∧
    find_onsets [0, mkRat 1 5] (mkRat 1 10) 5 = some [] ∧
    (1 : ℕ) ∉ ([] : List ℕ) := by decide

/-- C1 (amended): the refractory filter compares the first candidate c0
against a virtual predecessor placed at index periodThreshold, so its
computed gap is c0 - periodThreshold and it appears in the returned onset
sequence exactly when periodThreshold is at most c0 - periodThreshold; it
does not always pass. -/
theorem find_onsets_first_gap (signal : List ℚ) (thr : ℚ) (P : ℤ)
    (c0 : ℕ) (cs out : List ℕ)
    (hc : onsetIndsAll signal thr = c0 :: cs)
    (h : find_onsets signal thr P = some out) :
    c0 ∈ out ↔ P ≤ (c0 : ℤ) - P := by
  cases signal with
  | nil => simp [onsetIndsAll] at hc
  | cons s0 rest =>
      rw [find_onsets_eq] at h
      have hout := (Option.some.inj h).symm
      subst hout
      rw [hc]
      exact refractory_mem_head P P c0 cs (hc ▸ onsetIndsAll_pairwise (s0 :: rest) thr)

unseal Rat.sub in
/-- Witness for C1: on the waveform with a single jump at index 10 and
periodThreshold 5 the hypotheses hold with candidate list [10] and output
[10], and the first candidate is retained since 5 is at most 10 - 5. -/
theorem find_onsets_first_gap_w :
    10 ∈ ([10] : List ℕ) ↔ (5 : ℤ) ≤ ((10 : ℕ) : ℤ) - 5 :=
  find_onsets_first_gap jumpAtTen (mkRat 1 10) 5 10 [] [10] (by decide) (by decide)

/-- C9: the first raw candidate c0 is retained in the output of
find_onsets exactly when c0 is at least twice periodThreshold, because the
prepended virtual predecessor makes its computed gap c0 - periodThreshold
rather than periodThreshold. -/
theorem find_onsets_first_iff_twice (signal : List ℚ) (thr : ℚ) (P : ℤ)
    (c0 : ℕ) (cs out : List ℕ)
    (hc : onsetIndsAll signal thr = c0 :: cs)
    (h : find_onsets signal thr P = some out) :
    c0 ∈ out ↔ 2 * P ≤ (c0 : ℤ) := by
  cases signal with
  | nil => simp [onsetIndsAll] at hc
  | cons s0 rest =>
      rw [find_onsets_eq] at h
      have hout := (Option.some.inj h).symm
      subst hout
      rw [hc]
      rw [refractory_mem_head P P c0 cs (hc ▸ onsetIndsAll_pairwise (s0 :: rest) thr)]
      omega

unseal Rat.sub in
/-- Witness for C9: on the waveform with a single jump at index 10 and
periodThreshold 5 the first candidate 10 is retained, and indeed
2 * 5 is at most 10. -/
theorem find_onsets_first_iff_twice_w :
    10 ∈ ([10] : List ℕ) ↔ 2 * (5 : ℤ) ≤ ((10 : ℕ) : ℤ) :=
  find_onsets_first_iff_twice jumpAtTen (mkRat 1 10) 5 10 [] [10] (by decide) (by decide)

/-- C4: a non-first candidate is discarded by find_onsets exactly when its
gap to the immediately preceding raw candidate, not the preceding accepted
onset, is strictly less than periodThreshold; in particular a candidate
whose gap to the previous raw candidate is at least periodThreshold is
retained even if it is closer than periodThreshold to an earlier accepted
onset. -/
theorem find_onsets_gap_rule (signal : List ℚ) (thr : ℚ) (P : ℤ)
    (out pre post : List ℕ) (c c' : ℕ)
    (h : find_onsets signal thr P = some out)
    (hc : onsetIndsAll signal thr = pre ++ c :: c' :: post) :
    c' ∉ out ↔ (c' : ℤ) - (c : ℤ) < P := by
  cases signal with
  | nil => simp [find_onsets] at h
  | cons s0 rest =>
      rw [find_onsets_eq] at h
      have hout := (Option.some.inj h).symm
      subst hout
      rw [hc]
      have hp : (pre ++ c :: c' :: post).Pairwise (· < ·) :=
        hc ▸ onsetIndsAll_pairwise (s0 :: rest) thr
      have hiff := not_congr (refractory_mem_pair P c c' post pre P hp)
      rw [not_le] at hiff
      exact hiff

unseal Rat.sub in
/-- Witness for C4: on the scenario waveform the candidate list is [3, 10]
and the output is [10]; the second candidate 10 is not discarded, and
indeed its gap 10 - 3 = 7 is not below periodThreshold 5. -/
theorem find_onsets_gap_rule_w :
    (10 ∉ ([10] : List ℕ) ↔ ((10 : ℕ) : ℤ) - ((3 : ℕ) : ℤ) < 5) :=
  find_onsets_gap_rule specWaveform (mkRat 1 10) 5 [10] [] [] 3 10 (by decide) (by decide)

/-- C6: for every waveform and thresholds, the onset sequence returned by
find_onsets is strictly increasing. -/
theorem find_onsets_strictly_increasing (signal : List ℚ) (thr : ℚ) (P : ℤ)
    (out : List ℕ) (h : find_onsets signal thr P = some out) :
    out.Pairwise (· < ·) := by
  cases signal with
  | nil => simp [find_onsets] at h
  | cons s0 rest =>
      rw [find_onsets_eq] at h
      have hout := (Option.some.inj h).symm
      subst hout
      exact (onsetIndsAll_pairwise (s0 :: rest) thr).sublist
        (refractory_sublist P (onsetIndsAll (s0 :: rest) thr) P)

unseal Rat.sub in
/-- Witness for C6: on the scenario waveform find_onsets returns [10],
which is strictly increasing. -/
theorem find_onsets_strictly_increasing_w :
    ([10] : List ℕ).Pairwise (· < ·) :=
  find_onsets_strictly_increasing specWaveform (mkRat 1 10) 5 [10] (by decide)

/-! Embedding of the direction classifier find_fm_direction. The sound
waveform is modelled over the reals and np.fft.rfft as the exact discrete
Fourier transform it approximates; np.fft.rfft raises on an empty input,
which is modelled by Option. -/

/-- Model of the python slice sound[a : b] for nonnegative bounds:
elements at indices a, a+1, ..., b-1, clamped to the list length. -/
def pySlice (l : List ℝ) (a b : ℕ) : List ℝ := (l.drop a).take (b - a)

/-- The values of np.fft.rfft on a nonempty input of length N: the
nonnegative-frequency DFT bins A_k for k = 0, ..., N/2, where
A_k is the sum over n of x_n times exp(-2 pi i k n / N). -/
noncomputable def rfftVals (x : List ℝ) : List ℂ :=
  (List.range (x.length / 2 + 1)).map fun k =>
    ∑ n ∈ Finset.range x.length,
      ((x.getD n 0 : ℝ) : ℂ) *
        Complex.exp (-2 * (Real.pi : ℂ) * Complex.I * (k : ℂ) * (n : ℂ) / (x.length : ℂ))

/-- Model of np.fft.rfft: raises (none) on an empty input, otherwise the
list of nonnegative-frequency DFT bins. -/
noncomputable def rfft (x : List ℝ) : Option (List ℂ) :=
  if x.isEmpty then none else some (rfftVals x)

/-- Helper for the model of np.argmax: fold over the remaining elements,
replacing the best index only on a strictly larger value, so the first
occurrence of the maximum is kept. -/
noncomputable def argmaxFrom : List ℝ → ℕ → ℕ → ℝ → ℕ
  | [], _, best, _ => best
  | x :: xs, i, best, bestVal =>
      if bestVal < x then argmaxFrom xs (i + 1) i x
      else argmaxFrom xs (i + 1) best bestVal

/-- Model of np.argmax on a real array: the lowest index attaining the
maximum value. Only applied to nonempty lists in the pipeline, since rfft
output on a nonempty window has at least one bin. -/
noncomputable def npArgmax : List ℝ → ℕ
  | [] => 0
  | x :: xs => argmaxFrom xs 1 0 x

/-- The fixed direction label map of the source, the dict with up mapped
to 0 and down mapped to 1. -/
def sweepDirectionLabels : List (String × ℕ) :=
  [( "up", 0), ( "down", 1)]

/-- One iteration of the trial loop of find_fm_direction: slice the first
and second half-windows after the onset, take the magnitude spectrum of
each via rfft, compare dominant bins, and classify as 1 (down) when the
first-half dominant bin strictly exceeds the second-half one, else 0 (up).
A failure of rfft on an empty slice propagates as none. -/
noncomputable def classifyTrial (sound : List ℝ) (soundDurationInSamples : ℕ)
    (o : ℕ) : Option ℕ :=
  (rfft (pySlice sound o (o + soundDurationInSamples / 2))).bind fun s1 =>
  (rfft (pySlice sound (o + soundDurationInSamples / 2)
      (o + soundDurationInSamples))).bind fun s2 =>
  some (if npArgmax (s2.map fun z => Complex.abs z) <
          npArgmax (s1.map fun z => Complex.abs z) then 1 else 0)

/-- The trial loop of find_fm_direction, in onset order; the first rfft
failure aborts the whole computation, as an uncaught exception would. -/
noncomputable def classifyAll (sound : List ℝ) (W : ℕ) : List ℕ → Option (List ℕ)
  | [] => some []
  | o :: rest =>
      (classifyTrial sound W o).bind fun d =>
      (classifyAll sound W rest).bind fun ds =>
      some (d :: ds)

/-- Embedding of find_fm_direction from the notebook: the direction codes
for all onsets, paired with the fixed direction label map. -/
noncomputable def find_fm_direction (sound : List ℝ) (onsetInds : List ℕ)
    (soundDurationInSamples : ℕ) : Option (List ℕ × List (String × ℕ)) :=
  (classifyAll sound soundDurationInSamples onsetInds).bind fun sweepDirection =>
  some (sweepDirection, sweepDirectionLabels)

theorem rfft_eq_some {x : List ℝ} {s : List ℂ} (h : rfft x = some s) :
    s = rfftVals x := by
  unfold rfft at h
  split at h
  · exact absurd h (by simp)
  · exact (Option.some.inj h).symm

theorem classifyTrial_eq_some {sound : List ℝ} {W o d : ℕ}
    (h : classifyTrial sound W o = some d) :
    d = if npArgmax ((rfftVals (pySlice sound (o + W / 2) (o + W))).map
            fun z => Complex.abs z) <
          npArgmax ((rfftVals (pySlice sound o (o + W / 2))).map
            fun z => Complex.abs z)
        then 1 else 0 := by
  unfold classifyTrial at h
  rw [Option.bind_eq_some] at h
  obtain ⟨s1, hs1, h⟩ := h
  rw [Option.bind_eq_some] at h
  obtain ⟨s2, hs2, h⟩ := h
  rw [rfft_eq_some hs1, rfft_eq_some hs2] at h
  exact (Option.some.inj h).symm

theorem classifyAll_length {sound : List ℝ} {W : ℕ} :
    ∀ {os dirs : List ℕ}, classifyAll sound W os = some dirs →
      dirs.length = os.length := by
  intro os
  induction os with
  | nil =>
      intro dirs h
      simp only [classifyAll] at h
      rw [← Option.some.inj h]
  | cons o rest ih =>
      intro dirs h
      unfold classifyAll at h
      rw [Option.bind_eq_some] at h
      obtain ⟨d, _, h⟩ := h
      rw [Option.bind_eq_some] at h
      obtain ⟨ds, hds, h⟩ := h
      rw [← Option.some.inj h]
      simp [ih hds]

theorem classifyAll_split {sound : List ℝ} {W : ℕ} :
    ∀ (pre : List ℕ) {os post dirs : List ℕ} {o : ℕ},
      classifyAll sound W os = some dirs → os = pre ++ o :: post →
      classifyTrial sound W o = some (dirs.getD pre.length 0) := by
  intro pre
  induction pre with
  | nil =>
      intro os post dirs o h hsplit
      subst hsplit
      rw [List.nil_append] at h
      unfold classifyAll at h
      rw [Option.bind_eq_some] at h
      obtain ⟨d, hd, h⟩ := h
      rw [Option.bind_eq_some] at h
      obtain ⟨ds, _, h⟩ := h
      rw [← Option.some.inj h]
      simpa using hd
  | cons a pre ih =>
      intro os post dirs o h hsplit
      subst hsplit
      rw [List.cons_append] at h
      unfold classifyAll at h
      rw [Option.bind_eq_some] at h
      obtain ⟨d, _, h⟩ := h
      rw [Option.bind_eq_some] at h
      obtain ⟨ds, hds, h⟩ := h
      rw [← Option.some.inj h]
      simpa using ih hds rfl

theorem find_fm_direction_eq_some {sound : List ℝ} {onsetInds : List ℕ} {W : ℕ}
    {dirs : List ℕ} {labels : List (String × ℕ)}
    (h : find_fm_direction sound onsetInds W = some (dirs, labels)) :
    classifyAll sound W onsetInds = some dirs ∧ labels = sweepDirectionLabels := by
  unfold find_fm_direction at h
  rw [Option.bind_eq_some] at h
  obtain ⟨ds, hds, h⟩ := h
  have hpair := Option.some.inj h
  refine ⟨?_, ?_⟩
  · rw [hds]; exact congrArg some (congrArg Prod.fst hpair)
  · exact (congrArg Prod.snd hpair).symm

theorem getD_zero_eq_getElem {l : List ℝ} {n : ℕ} (h : n < l.length) :
    l.getD n 0 = l[n] := by
  simp [List.getD_eq_getElem?_getD, List.getElem?_eq_getElem h]

theorem rfftVals_all_zero {x : List ℝ} (hz : ∀ a ∈ x, a = 0) :
    ∀ z ∈ rfftVals x, z = 0 := by
  intro z hzmem
  simp only [rfftVals, List.mem_map] at hzmem
  obtain ⟨k, _, rfl⟩ := hzmem
  refine Finset.sum_eq_zero ?_
  intro n hn
  have hlt : n < x.length := Finset.mem_range.mp hn
  have h0 : x.getD n 0 = 0 := by
    rw [getD_zero_eq_getElem hlt]
    exact hz _ (List.getElem_mem hlt)
  rw [h0]
  simp

theorem argmaxFrom_stay : ∀ (l : List ℝ) (i best : ℕ) (bv : ℝ),
    (∀ x ∈ l, ¬ bv < x) → argmaxFrom l i best bv = best := by
  intro l
  induction l with
  | nil => intro i best bv _; rfl
  | cons x xs ih =>
      intro i best bv hbd
      unfold argmaxFrom
      rw [if_neg (hbd x (by simp))]
      exact ih (i + 1) best bv fun y hy => hbd y (List.mem_cons_of_mem x hy)

theorem npArgmax_all_zero {l : List ℝ} (hz : ∀ x ∈ l, x = (0 : ℝ)) :
    npArgmax l = 0 := by
  cases l with
  | nil => rfl
  | cons x xs =>
      unfold npArgmax
      refine argmaxFrom_stay xs 1 0 x ?_
      intro y hy
      rw [hz y (List.mem_cons_of_mem x hy), hz x (by simp)]
      exact lt_irrefl 0

theorem dominant_bin_zero {l : List ℝ} (hz : ∀ a ∈ l, a = 0) :
    npArgmax ((rfftVals l).map fun z => Complex.abs z) = 0 := by
  apply npArgmax_all_zero
  intro m hm
  simp only [List.mem_map] at hm
  obtain ⟨z, hzm, rfl⟩ := hm
  rw [rfftVals_all_zero hz z hzm]
  simp

theorem pySlice_subset_window {l : List ℝ} {a b : ℕ} :
    ∀ x ∈ pySlice l a b, ∃ j, a ≤ j ∧ j < b ∧ x = l.getD j 0 := by
  intro x hx
  unfold pySlice at hx
  obtain ⟨i, hi, hget⟩ := List.getElem_of_mem hx
  have hbounds := hi
  rw [List.length_take, List.length_drop] at hbounds
  rw [List.getElem_take, List.getElem_drop] at hget
  refine ⟨a + i, Nat.le_add_right a i, by omega, ?_⟩
  rw [getD_zero_eq_getElem (by omega), hget]

theorem pySlice_ne_nil_iff {l : List ℝ} {a b : ℕ} :
    pySlice l a b ≠ [] ↔ a < l.length ∧ a < b := by
  unfold pySlice
  rw [← List.length_pos, List.length_take, List.length_drop]
  omega

theorem rfft_isSome {x : List ℝ} : (rfft x).isSome = true ↔ x ≠ [] := by
  unfold rfft
  split
  · rename_i h
    simp [List.isEmpty_iff.mp h]
  · rename_i h
    simpa using fun hnil => h (List.isEmpty_iff.mpr hnil)

theorem classifyTrial_isSome {sound : List ℝ} {W o : ℕ} :
    (classifyTrial sound W o).isSome = true ↔
      pySlice sound o (o + W / 2) ≠ [] ∧
      pySlice sound (o + W / 2) (o + W) ≠ [] := by
  unfold classifyTrial
  cases hfh : rfft (pySlice sound o (o + W / 2)) with
  | none =>
      have h1 : ¬ pySlice sound o (o + W / 2) ≠ [] := by
        rw [← rfft_isSome, hfh]; simp
      simp [h1]
  | some s1 =>
      have h1 : pySlice sound o (o + W / 2) ≠ [] := by
        rw [← rfft_isSome, hfh]; simp
      cases hsh : rfft (pySlice sound (o + W / 2) (o + W)) with
      | none =>
          have h2 : ¬ pySlice sound (o + W / 2) (o + W) ≠ [] := by
            rw [← rfft_isSome, hsh]; simp
          simp [h1, h2]
      | some s2 =>
          have h2 : pySlice sound (o + W / 2) (o + W) ≠ [] := by
            rw [← rfft_isSome, hsh]; simp
          simp [h1, h2]

theorem classifyAll_isSome {sound : List ℝ} {W : ℕ} :
    ∀ os : List ℕ, (classifyAll sound W os).isSome = true ↔
      ∀ o ∈ os, (classifyTrial sound W o).isSome = true := by
  intro os
  induction os with
  | nil => simp [classifyAll]
  | cons o rest ih =>
      have hcons : classifyAll sound W (o :: rest) =
          (classifyTrial sound W o).bind fun d =>
          (classifyAll sound W rest).bind fun ds => some (d :: ds) := rfl
      have hstep : (classifyAll sound W (o :: rest)).isSome = true ↔
          ((classifyTrial sound W o).isSome = true ∧
            (classifyAll sound W rest).isSome = true) := by
        rw [hcons]
        cases classifyTrial sound W o <;>
          cases hr : classifyAll sound W rest <;> simp [hr]
      rw [hstep, ih, List.forall_mem_cons]

theorem find_fm_direction_isSome {sound : List ℝ} {onsetInds : List ℕ} {W : ℕ} :
    (find_fm_direction sound onsetInds W).isSome = true ↔
      (classifyAll sound W onsetInds).isSome = true := by
  unfold find_fm_direction
  cases h : classifyAll sound W onsetInds <;> simp [h]

theorem classifyTrial_zero4 : classifyTrial [(0 : ℝ), 0, 0, 0] 4 0 = some 0 := by
  have hfh : pySlice [(0 : ℝ), 0, 0, 0] 0 (0 + 4 / 2) = [0, 0] := rfl
  have hsh : pySlice [(0 : ℝ), 0, 0, 0] (0 + 4 / 2) (0 + 4) = [0, 0] := rfl
  have hz : ∀ a ∈ [(0 : ℝ), 0], a = 0 := by
    intro a ha
    rcases List.mem_cons.mp ha with rfl | ha
    · rfl
    · simpa using ha
  have hbin := dominant_bin_zero hz
  unfold classifyTrial
  rw [hfh, hsh]
  rw [show rfft [(0 : ℝ), 0] = some (rfftVals [(0 : ℝ), 0]) from rfl]
  simp [hbin]

theorem fm_zero :
    find_fm_direction [(0 : ℝ), 0, 0, 0] [0] 4 = some ([0], sweepDirectionLabels) := by
  simp [find_fm_direction, classifyAll, classifyTrial_zero4]

/-! Claim theorems for the direction classifier. -/

/-- C7: whenever find_fm_direction returns, the returned direction
sequence has exactly the same length as the input onset sequence. -/
theorem fm_direction_length (sound : List ℝ) (onsetInds : List ℕ) (W : ℕ)
    (dirs : List ℕ) (labels : List (String × ℕ))
    (h : find_fm_direction sound onsetInds W = some (dirs, labels)) :
    dirs.length = onsetInds.length :=
  classifyAll_length (find_fm_direction_eq_some h).1

/-- Witness for C7: on a four-sample silent waveform with one onset at 0
and window 4, find_fm_direction returns one direction code for the one
onset. -/
theorem fm_direction_length_w : ([0] : List ℕ).length = ([0] : List ℕ).length :=
  fm_direction_length [(0 : ℝ), 0, 0, 0] [0] 4 [0] sweepDirectionLabels fm_zero

/-- C5: for an onset o whose full window of soundDurationInSamples samples
lies inside the waveform, the direction code that find_fm_direction
assigns to that onset equals 1 (down) exactly when the lowest-index argmax
of the magnitude of the real FFT of the first half-window strictly exceeds
that of the second half-window, and 0 (up) otherwise, including on exact
equality. -/
theorem fm_direction_rule (sound : List ℝ) (onsetInds : List ℕ) (W : ℕ)
    (dirs : List ℕ) (labels : List (String × ℕ)) (pre post : List ℕ) (o : ℕ)
    (h : find_fm_direction sound onsetInds W = some (dirs, labels))
    (hsplit : onsetInds = pre ++ o :: post)
    (_hwin : o + W ≤ sound.length) :
    dirs.getD pre.length 0 =
      if npArgmax ((rfftVals (pySlice sound (o + W / 2) (o + W))).map
            fun z => Complex.abs z) <
          npArgmax ((rfftVals (pySlice sound o (o + W / 2))).map
            fun z => Complex.abs z)
      then 1 else 0 :=
  classifyTrial_eq_some (classifyAll_split pre (find_fm_direction_eq_some h).1 hsplit)

/-- Witness for C5: on the four-sample silent waveform with onset 0 and
window 4, whose full window lies inside the waveform, the assigned code
matches the dominant-bin comparison of the two half-windows. -/
theorem fm_direction_rule_w :
    ([0] : List ℕ).getD 0 0 =
      if npArgmax ((rfftVals (pySlice [(0 : ℝ), 0, 0, 0] (0 + 4 / 2) (0 + 4))).map
            fun z => Complex.abs z) <
          npArgmax ((rfftVals (pySlice [(0 : ℝ), 0, 0, 0] 0 (0 + 4 / 2))).map
            fun z => Complex.abs z)
      then 1 else 0 :=
  fm_direction_rule [(0 : ℝ), 0, 0, 0] [0] 4 [0] sweepDirectionLabels [] [] 0
    fm_zero rfl (by simp)

/-- C8: for an onset whose window is entirely zero, find_fm_direction
computes dominant frequency bin 0 for both half-windows and classifies the
trial as code 0 (up) by the lowest-index tie-break. -/
theorem fm_direction_silence (sound : List ℝ) (onsetInds : List ℕ) (W : ℕ)
    (dirs : List ℕ) (labels : List (String × ℕ)) (pre post : List ℕ) (o : ℕ)
    (h : find_fm_direction sound onsetInds W = some (dirs, labels))
    (hsplit : onsetInds = pre ++ o :: post)
    (hz : ∀ j, j < W → sound.getD (o + j) 0 = 0) :
    npArgmax ((rfftVals (pySlice sound o (o + W / 2))).map
        fun z => Complex.abs z) = 0 ∧
    npArgmax ((rfftVals (pySlice sound (o + W / 2) (o + W))).map
        fun z => Complex.abs z) = 0 ∧
    dirs.getD pre.length 0 = 0 := by
  have hz1 : ∀ a ∈ pySlice sound o (o + W / 2), a = 0 := by
    intro a ha
    obtain ⟨j, hge, hlt, rfl⟩ := pySlice_subset_window a ha
    have hrw : o + (j - o) = j := by omega
    rw [← hrw]
    exact hz (j - o) (by omega)
  have hz2 : ∀ a ∈ pySlice sound (o + W / 2) (o + W), a = 0 := by
    intro a ha
    obtain ⟨j, hge, hlt, rfl⟩ := pySlice_subset_window a ha
    have hrw : o + (j - o) = j := by omega
    rw [← hrw]
    exact hz (j - o) (by omega)
  have hb1 := dominant_bin_zero hz1
  have hb2 := dominant_bin_zero hz2
  refine ⟨hb1, hb2, ?_⟩
  have htrial :=
    classifyTrial_eq_some (classifyAll_split pre (find_fm_direction_eq_some h).1 hsplit)
  rw [htrial, hb1, hb2]
  simp

/-- Witness for C8: the four-sample silent waveform with onset 0 and
window 4 has an all-zero window; both dominant bins are 0 and the trial is
classified 0 (up). -/
theorem fm_direction_silence_w :
    npArgmax ((rfftVals (pySlice [(0 : ℝ), 0, 0, 0] 0 (0 + 4 / 2))).map
        fun z => Complex.abs z) = 0 ∧
    npArgmax ((rfftVals (pySlice [(0 : ℝ), 0, 0, 0] (0 + 4 / 2) (0 + 4))).map
        fun z => Complex.abs z) = 0 ∧
    ([0] : List ℕ).getD 0 0 = 0 :=
  fm_direction_silence [(0 : ℝ), 0, 0, 0] [0] 4 [0] sweepDirectionLabels [] [] 0
    fm_zero rfl (by intro j hj; interval_cases j <;> rfl)

/-- C10: with soundDurationInSamples a positive even integer, as the
contract of the specification requires, find_fm_direction returns
normally exactly when every onset o satisfies o + W / 2 < len(sound),
that is, when both extracted half-windows are non-empty; onsets whose
windows are merely truncated are still classified, while an onset with an
empty second half-window makes rfft raise instead of returning. -/
theorem fm_direction_returns_iff (sound : List ℝ) (onsetInds : List ℕ) (W : ℕ)
    (hWeven : W % 2 = 0) (hWpos : 0 < W) :
    (find_fm_direction sound onsetInds W).isSome = true ↔
      ∀ o ∈ onsetInds, o + W / 2 < sound.length := by
  rw [find_fm_direction_isSome, classifyAll_isSome]
  refine forall_congr' fun o => imp_congr_right fun ho => ?_
  rw [classifyTrial_isSome, pySlice_ne_nil_iff, pySlice_ne_nil_iff]
  omega

/-- Witness for C10: on a three-sample waveform with window 2 and one
onset at 0 the half-window condition holds, so find_fm_direction returns
normally. -/
theorem fm_direction_returns_iff_w :
    (find_fm_direction [(0 : ℝ), 0, 0] [0] 2).isSome = true :=
  (fm_direction_returns_iff [(0 : ℝ), 0, 0] [0] 2 (by decide) (by decide)).mpr
    (by
      intro o ho
      rw [List.mem_singleton] at ho
      subst ho
      simp)

end Oddball
